import Mathlib

/-!
Verification of `ethercat_ex`, an Erlang NIF wrapper (src/c_src/ethercat_nif.c)
around an external EtherCAT fieldbus master library.

The NIF keeps a context holding a master pointer and a singly linked list of
named domains. We embed the context and each NIF entry point as Lean
functions. Calls into the external fieldbus library (`ecrt_*`) and into the
allocator (`enif_alloc`) are modelled by explicit response parameters: the
embedded function receives the values those calls would return and is
otherwise a direct transcription of the C control flow. A C execution that
dereferences a null pointer is modelled as `none`.
-/

namespace EthercatEx

/-- Atoms a NIF entry point can hand back to the Erlang caller. -/
inductive NifResult
  | ok
  | error
  | badarg
  deriving DecidableEq, Repr

/-- Opaque `ec_domain_t*` handle obtained from `ecrt_master_create_domain`,
modelled as a natural number. -/
abbrev DomainHandle := Nat

/-- One cell of the linked list of the registry (`domain_node_t`): a name and the
fieldbus domain handle.  The `next` pointer becomes the tail of a Lean list. -/
structure DomainNode where
  name : String
  domain : DomainHandle
  deriving DecidableEq, Repr

/-- The `ethercat_context_t` record: the master pointer (`none` models NULL) and the
domain list, head first. -/
structure EthercatContext where
  master : Option Nat
  domain_list : List DomainNode
  deriving DecidableEq, Repr

/-- The duplicate-name scan at the top of `nif_master_create_domain`
(and the search loop shape shared with `get_domain_by_name`):
walk the list and compare the name of each node. -/
def containsName : List DomainNode → String → Bool
  | [], _ => false
  | c :: rest, name => if c.name = name then true else containsName rest name

/-- External responses observed by one `nif_master_create_domain` call:
the handle returned by `ecrt_master_create_domain` (`none` models NULL) and
whether `enif_alloc` returns a node (`false` models NULL). -/
structure CreateEnv where
  createdDomain : Option DomainHandle
  allocOk : Bool
  deriving DecidableEq, Repr

/-- The external calls inside one `nif_master_create_domain` call both
succeed: the fieldbus returns a domain handle and the allocator a node. -/
def CreateEnv.succeeds (e : CreateEnv) : Bool :=
  e.createdDomain.isSome && e.allocOk

/-- Embeds `nif_master_create_domain` (ethercat_nif.c lines 39-71).
`arg = none` models an argument `enif_get_string` cannot decode (badarg).
The source never inspects `context->master`: it passes it, NULL or not,
straight to `ecrt_master_create_domain`, whose reply is `env.createdDomain`.
When `enif_alloc` fails (`env.allocOk = false`) the source runs
`if (!new_node) { if (!domain) return ...; }` — `domain` is non-NULL at that
point, so neither return fires and control falls through to
`strcpy(new_node->name, name)` with `new_node == NULL`; we model that
null-pointer write as `none` (crash). -/
def nif_master_create_domain (env : CreateEnv) (ctx : EthercatContext)
    (arg : Option String) : Option (NifResult × EthercatContext) :=
  match arg with
  | none => some (NifResult.badarg, ctx)
  | some name =>
    if containsName ctx.domain_list name then
      some (NifResult.error, ctx)
    else
      match env.createdDomain with
      | none => some (NifResult.error, ctx)
      | some domain =>
        if env.allocOk then
          some (NifResult.ok,
            { ctx with domain_list := ⟨name, domain⟩ :: ctx.domain_list })
        else
          none

/-- The splice performed by the `while` loop of `nif_master_remove_domain`:
drop the first node whose name matches, `none` if no node matches. -/
def removeFirst : List DomainNode → String → Option (List DomainNode)
  | [], _ => none
  | c :: rest, name =>
    if c.name = name then some rest
    else
      match removeFirst rest name with
      | none => none
      | some rest2 => some (c :: rest2)

/-- Embeds `nif_master_remove_domain` (ethercat_nif.c lines 73-98): unlink and
free the first matching node and return ok, or return error leaving the list
untouched.  `arg = none` models a string `enif_get_string` cannot decode. -/
def nif_master_remove_domain (ctx : EthercatContext) (arg : Option String) :
    NifResult × EthercatContext :=
  match arg with
  | none => (NifResult.badarg, ctx)
  | some name =>
    match removeFirst ctx.domain_list name with
    | none => (NifResult.error, ctx)
    | some l => (NifResult.ok, { ctx with domain_list := l })

/-- Embeds `nif_master_activate` (ethercat_nif.c lines 177-181).  `activateRet`
is the int returned by `ecrt_master_activate` (nonzero reports failure).  The
source statement `if (ecrt_master_activate(context->master)) enif_make_atom(env,
"error");` lacks a `return`: the error atom is built and discarded, and control
always reaches `return enif_make_atom(env, "ok");`. -/
def nif_master_activate (activateRet : Int) : NifResult :=
  if activateRet ≠ 0 then
    let _discardedErrorAtom := NifResult.error
    NifResult.ok
  else
    NifResult.ok

/-- Working-counter classification reported by `ecrt_domain_state`:
EC_WC_ZERO, EC_WC_INCOMPLETE, EC_WC_COMPLETE. -/
inductive WcState
  | zero
  | incomplete
  | complete
  deriving DecidableEq, Repr

/-- Embeds `check_domain_state` (ethercat_nif.c lines 202-214): query the
state of the domain and report whether `ds.wc_state == EC_WC_COMPLETE`.  `wc` maps
each domain handle to the state the fieldbus reports for it this cycle. -/
def check_domain_state (wc : DomainHandle → WcState) (domain : DomainHandle) :
    Bool :=
  decide (wc domain = WcState.complete)

/-- Observable calls the NIF makes into the fieldbus library and the Erlang
VM, recorded in program order (the instrumented-fake-master view). -/
inductive Event
  | receive
  | process (domain : DomainHandle)
  | notify (target : Nat) (domain : DomainHandle)
  | queue (domain : DomainHandle)
  | send
  deriving DecidableEq, Repr

/-- Inner per-domain loop of `nif_cyclic_task` (ethercat_nif.c lines
224-232): for each node, `ecrt_domain_process`, then `check_domain_state`,
and on a complete state one `enif_send` to `caller_pid`.  The notify event is
tagged with the pid handed to `enif_send` and with the domain whose state
check triggered it (the C payload itself is a fixed diagnostic string). -/
def processDomains (wc : DomainHandle → WcState) (callerPid : Nat) :
    List DomainNode → List Event
  | [] => []
  | c :: rest =>
    Event.process c.domain ::
      ((if check_domain_state wc c.domain then
          [Event.notify callerPid c.domain]
        else []) ++
        processDomains wc callerPid rest)

/-- One iteration of the `while (1)` body of `nif_cyclic_task`
(ethercat_nif.c lines 221-234): `ecrt_master_receive`, then process and check
every registered domain in list order.  The loop body itself never queues a
domain and never sends. -/
def cyclicIteration (wc : DomainHandle → WcState) (ctx : EthercatContext)
    (callerPid : Nat) : List Event :=
  Event.receive :: processDomains wc callerPid ctx.domain_list

/-- Embeds `nif_queue_all_domains` (ethercat_nif.c lines 183-194):
`ecrt_domain_queue` on every registered domain in list order, then a single
`ecrt_master_send`. -/
def queueAllDomainsTrace (ctx : EthercatContext) : List Event :=
  ctx.domain_list.map (fun c => Event.queue c.domain) ++ [Event.send]

/-- The `while (1)` loop of `nif_cyclic_task` observed for `fuel` iterations:
the result component is `some r` once the function has returned `r`, and
`none` while it is still looping.  The loop contains no `break` and no
`return`, so the base case (still inside the loop) carries `none` and every
unfolding passes the inner result through unchanged. -/
def nif_cyclic_task_loop (wc : DomainHandle → WcState)
    (ctx : EthercatContext) (callerPid : Nat) :
    Nat → Option NifResult × List Event
  | 0 => (none, [])
  | fuel + 1 =>
    let rest := nif_cyclic_task_loop wc ctx callerPid fuel
    (rest.1, cyclicIteration wc ctx callerPid ++ rest.2)

/-- Embeds `nif_cyclic_task` (ethercat_nif.c lines 216-236) run for `fuel`
loop iterations.  `selfOk` is the boolean result of `enif_self`, which
captures the pid of the process that called `run`; on failure the function
returns the error atom before the loop starts.  `callerPid` is the captured
pid — there is no other destination: the context stores no subscriber and no
configuration entry point exists in the NIF table. -/
def nif_cyclic_task_run (wc : DomainHandle → WcState)
    (ctx : EthercatContext) (selfOk : Bool) (callerPid : Nat) (fuel : Nat) :
    Option NifResult × List Event :=
  if selfOk then nif_cyclic_task_loop wc ctx callerPid fuel
  else (some NifResult.error, [])

/-- The pids handed to `enif_send` in a trace, in order. -/
def notifyTargets : List Event → List Nat
  | [] => []
  | Event.notify t _ :: rest => t :: notifyTargets rest
  | _ :: rest => notifyTargets rest

/-- Modelled from the spec: the boundary surface in spec.md section 6 lists a
configuration call `configure(subscriber_ref)` that registers a Subscriber
Reference once before the loop starts, the destination the State Notifier is
said to deliver to.  No such entry point, and no stored subscriber field,
exists anywhere in src/c_src/ethercat_nif.c — `nif_funcs` has no configure
entry and `ethercat_context_t` has only `master` and `domain_list`.  We model
the configured state of the spec as just the registered reference. -/
structure SpecConfiguredSubscriber where
  subscriber : Nat
  deriving DecidableEq, Repr

/-- A sequence of `master_create_domain` calls, one per name in order.  The
external responses for the k-th call of the run are `envs k`; `none`
propagates a crash of one of the calls. -/
def createSeq (envs : Nat → CreateEnv) (k : Nat) (ctx : EthercatContext) :
    List String → Option EthercatContext
  | [] => some ctx
  | n :: rest =>
    match nif_master_create_domain (envs k) ctx (some n) with
    | none => none
    | some (_, ctx2) => createSeq envs (k + 1) ctx2 rest

/-- One registry call made during the setup phase, with the external
responses the create call observes. -/
inductive RegistryOp
  | create (env : CreateEnv) (name : String)
  | remove (name : String)
  deriving DecidableEq, Repr

/-- Runs a sequence of `master_create_domain` / `master_remove_domain` calls;
`none` propagates a crash of one of the calls. -/
def runOps (ctx : EthercatContext) : List RegistryOp → Option EthercatContext
  | [] => some ctx
  | RegistryOp.create env n :: rest =>
    match nif_master_create_domain env ctx (some n) with
    | none => none
    | some (_, ctx2) => runOps ctx2 rest
  | RegistryOp.remove n :: rest =>
    runOps (nif_master_remove_domain ctx (some n)).2 rest

/-- The names registered in a context, in list order. -/
def registryNames (ctx : EthercatContext) : List String :=
  ctx.domain_list.map (fun c => c.name)

section RegistryLemmas

/-- The predicate `containsName` is membership of the name among the node names. -/
theorem containsName_eq_mem (l : List DomainNode) (name : String) :
    containsName l name = true ↔ name ∈ l.map (fun c => c.name) := by
  induction l with
  | nil => simp [containsName]
  | cons c rest ih =>
    by_cases h : c.name = name
    · simp [containsName, h]
    · have h2 : ¬name = c.name := fun hh => h hh.symm
      simp [containsName, h, h2, ih]

/-- The splice `removeFirst` finds a node exactly when the name is present. -/
theorem removeFirst_isSome (l : List DomainNode) (name : String) :
    (removeFirst l name).isSome = containsName l name := by
  induction l with
  | nil => simp [removeFirst, containsName]
  | cons c rest ih =>
    by_cases h : c.name = name
    · simp [removeFirst, containsName, h]
    · simp only [removeFirst, containsName, h, if_false, if_neg h]
      cases hr : removeFirst rest name with
      | none => simpa [hr] using ih
      | some rest2 => simpa [hr] using ih

/-- The list `removeFirst` returns is one node shorter. -/
theorem removeFirst_length (l : List DomainNode) (name : String)
    (l2 : List DomainNode) (h : removeFirst l name = some l2) :
    l2.length + 1 = l.length := by
  induction l generalizing l2 with
  | nil => simp [removeFirst] at h
  | cons c rest ih =>
    by_cases hc : c.name = name
    · simp [removeFirst, hc] at h
      simp [← h]
    · simp only [removeFirst, if_neg hc] at h
      cases hr : removeFirst rest name with
      | none => simp [hr] at h
      | some rest2 =>
        simp [hr] at h
        have := ih rest2 hr
        simp [← h, List.length_cons]
        omega

/-- The list `removeFirst` returns is a sublist of the original. -/
theorem removeFirst_sublist (l : List DomainNode) (name : String)
    (l2 : List DomainNode) (h : removeFirst l name = some l2) :
    l2.Sublist l := by
  induction l generalizing l2 with
  | nil => simp [removeFirst] at h
  | cons c rest ih =>
    by_cases hc : c.name = name
    · simp [removeFirst, hc] at h
      exact h ▸ List.sublist_cons_self c rest
    · simp only [removeFirst, if_neg hc] at h
      cases hr : removeFirst rest name with
      | none => simp [hr] at h
      | some rest2 =>
        simp [hr] at h
        exact h ▸ List.Sublist.cons₂ c (ih rest2 hr)

end RegistryLemmas

section RegistrySequenceLemmas

/-- Names absent from a registry stay absent from duplicates inserted for
other names: a successful run of creates over fresh, pairwise distinct names
adds exactly one node per name. -/
theorem createSeq_length (envs : Nat → CreateEnv) (names : List String) :
    ∀ (k : Nat) (ctx : EthercatContext), names.Nodup →
      (∀ n ∈ names, containsName ctx.domain_list n = false) →
      (∀ j, (envs j).succeeds = true) →
      ∃ ctx2, createSeq envs k ctx names = some ctx2 ∧
        ctx2.domain_list.length = ctx.domain_list.length + names.length := by
  induction names with
  | nil =>
    intro k ctx _ _ _
    exact ⟨ctx, rfl, by simp [createSeq]⟩
  | cons n rest ih =>
    intro k ctx hnd hfresh hsucc
    have hn : containsName ctx.domain_list n = false := hfresh n (by simp)
    have hs := hsucc k
    rw [CreateEnv.succeeds, Bool.and_eq_true] at hs
    obtain ⟨d, hd⟩ := Option.isSome_iff_exists.1 hs.1
    rw [List.nodup_cons] at hnd
    have hstep : nif_master_create_domain (envs k) ctx (some n) =
        some (NifResult.ok,
          { ctx with domain_list := ⟨n, d⟩ :: ctx.domain_list }) := by
      rw [nif_master_create_domain, hn]
      simp [hd, hs.2]
    have hfresh2 : ∀ m ∈ rest,
        containsName (⟨n, d⟩ :: ctx.domain_list) m = false := by
      intro m hm
      have hne : n ≠ m := fun he => hnd.1 (he ▸ hm)
      rw [containsName]
      simp only [if_neg hne]
      exact hfresh m (List.mem_cons_of_mem n hm)
    obtain ⟨ctx2, h1, h2⟩ :=
      ih (k + 1) { ctx with domain_list := ⟨n, d⟩ :: ctx.domain_list }
        hnd.2 hfresh2 hsucc
    refine ⟨ctx2, ?_, ?_⟩
    · rw [createSeq, hstep]
      exact h1
    · rw [h2]
      simp [List.length_cons]
      omega

/-- After removing the only node bearing a name from a duplicate-free
registry, the name is gone. -/
theorem removeFirst_not_contains (l : List DomainNode) (name : String) :
    ∀ l2, (l.map fun c => c.name).Nodup → removeFirst l name = some l2 →
      containsName l2 name = false := by
  induction l with
  | nil => intro l2 _ h; simp [removeFirst] at h
  | cons c rest ih =>
    intro l2 hnd h
    rw [List.map_cons, List.nodup_cons] at hnd
    by_cases hc : c.name = name
    · rw [removeFirst, if_pos hc] at h
      obtain rfl : rest = l2 := by injection h
      have hnm : name ∉ rest.map fun c => c.name := hc ▸ hnd.1
      cases hcc : containsName rest name with
      | false => rfl
      | true => exact absurd ((containsName_eq_mem rest name).1 hcc) hnm
    · rw [removeFirst, if_neg hc] at h
      cases hr : removeFirst rest name with
      | none => rw [hr] at h; cases h
      | some rest2 =>
        rw [hr] at h
        obtain rfl : c :: rest2 = l2 := by injection h
        rw [containsName, if_neg hc]
        exact ih rest2 hnd.2 hr

end RegistrySequenceLemmas

/-- Claim C3 — refuted evaluation.  The claim says `activate` returns error
to the caller whenever the fieldbus reports activation failure and ok only on
success.  Evaluating the embedded `nif_master_activate` at a failing
activation (`ecrt_master_activate` returning 1) yields ok: the source builds
the error atom but, lacking a `return`, discards it and falls through to
`return ok`. -/
theorem C3_activate_failure_returns_ok :
    nif_master_activate 1 = NifResult.ok := by decide

/-- Claim C5 — refuted evaluation.  The claim says a `create_domain` call
with no acquired master fails with an Unavailable error.  The source has no
null-master guard: with `context->master == NULL` it still calls
`ecrt_master_create_domain(NULL)` (undefined behaviour in the collaborator),
and if that call yields a handle the NIF happily returns ok and registers the
domain.  Here, with `master = none` and the collaborator replying handle 0,
the call returns ok, never an Unavailable error. -/
theorem C5_create_without_master_returns_ok :
    nif_master_create_domain ⟨some 0, true⟩ ⟨none, []⟩ (some "X") =
      some (NifResult.ok, ⟨none, [⟨"X", 0⟩]⟩) := by decide

/-- Claim C6: for every sequence of `create_domain` calls with distinct
names (starting from the empty registry, with the fieldbus and the allocator
answering every call), the registry size equals the number of names; and a
call with a name already present fails with the duplicate-name error leaving
the registry unchanged. -/
theorem C6_distinct_creates_and_duplicate_error
    (envs : Nat → CreateEnv) (names : List String) (m : Option Nat)
    (env : CreateEnv) (ctx : EthercatContext) (dup : String)
    (hnd : names.Nodup) (hsucc : ∀ j, (envs j).succeeds = true)
    (hdup : containsName ctx.domain_list dup = true) :
    (∃ ctx2, createSeq envs 0 ⟨m, []⟩ names = some ctx2 ∧
        ctx2.domain_list.length = names.length) ∧
      nif_master_create_domain env ctx (some dup) =
        some (NifResult.error, ctx) := by
  constructor
  · obtain ⟨ctx2, h1, h2⟩ :=
      createSeq_length envs names 0 ⟨m, []⟩ hnd (fun n _ => rfl) hsucc
    exact ⟨ctx2, h1, by simpa using h2⟩
  · rw [nif_master_create_domain, hdup]
    rfl

/-- Witness for C6 at a concrete run: creating "A" then "B" from the empty
registry gives two entries, and re-creating "C" against a registry holding
"C" errors without change. -/
theorem C6_distinct_creates_and_duplicate_error_witness :
    (∃ ctx2, createSeq (fun k => ⟨some k, true⟩) 0 ⟨some 0, []⟩ ["A", "B"] =
        some ctx2 ∧ ctx2.domain_list.length = 2) ∧
      nif_master_create_domain ⟨some 9, true⟩ ⟨some 0, [⟨"C", 5⟩]⟩ (some "C") =
        some (NifResult.error, ⟨some 0, [⟨"C", 5⟩]⟩) := by
  have h := C6_distinct_creates_and_duplicate_error (fun k => ⟨some k, true⟩)
    ["A", "B"] (some 0) ⟨some 9, true⟩ ⟨some 0, [⟨"C", 5⟩]⟩ "C"
    (by decide) (fun j => rfl) (by decide)
  simpa using h

/-- Claim C7: removing an absent name returns the error atom and leaves the
registry untouched. -/
theorem C7_remove_absent_is_noop (ctx : EthercatContext) (name : String)
    (h : containsName ctx.domain_list name = false) :
    nif_master_remove_domain ctx (some name) = (NifResult.error, ctx) := by
  have hs : (removeFirst ctx.domain_list name).isSome = false := by
    rw [removeFirst_isSome, h]
  cases hr : removeFirst ctx.domain_list name with
  | none => rw [nif_master_remove_domain, hr]
  | some l => rw [hr] at hs; simp at hs

/-- Witness for C7: removing "B" from a registry holding only "A". -/
theorem C7_remove_absent_is_noop_witness :
    nif_master_remove_domain ⟨some 0, [⟨"A", 0⟩]⟩ (some "B") =
      (NifResult.error, ⟨some 0, [⟨"A", 0⟩]⟩) :=
  C7_remove_absent_is_noop ⟨some 0, [⟨"A", 0⟩]⟩ "B" (by decide)

/-- Claim C10 — refuted evaluation.  The claim says the allocation-failure
branch of `create_domain` returns an error without dereferencing the null
node pointer.  Evaluating the embedding where `enif_alloc` fails while the
fieldbus returned a live domain handle yields the crash outcome: the guard
`if (!new_node) { if (!domain) return ...; }` cannot fire its inner return
(`domain` is non-NULL there), so `strcpy(new_node->name, name)` writes
through the null pointer. -/
theorem C10_alloc_failure_crashes :
    nif_master_create_domain ⟨some 7, false⟩ ⟨some 0, []⟩ (some "X") = none := by
  decide

/-- Claim C8: in a duplicate-free registry holding a domain named n,
`remove_domain(n)` succeeds and a following `create_domain(n)` (with the
fieldbus and allocator answering) succeeds again, the final registry having
the same total size as before the pair of calls. -/
theorem C8_remove_then_create_same_size (ctx : EthercatContext) (n : String)
    (env : CreateEnv) (hnd : (registryNames ctx).Nodup)
    (hmem : containsName ctx.domain_list n = true)
    (hsucc : env.succeeds = true) :
    (nif_master_remove_domain ctx (some n)).1 = NifResult.ok ∧
      ∃ ctx2, nif_master_create_domain env
          (nif_master_remove_domain ctx (some n)).2 (some n) =
          some (NifResult.ok, ctx2) ∧
        ctx2.domain_list.length = ctx.domain_list.length := by
  have hs : (removeFirst ctx.domain_list n).isSome = true := by
    rw [removeFirst_isSome, hmem]
  obtain ⟨l2, hl2⟩ := Option.isSome_iff_exists.1 hs
  have hrem : nif_master_remove_domain ctx (some n) =
      (NifResult.ok, { ctx with domain_list := l2 }) := by
    rw [nif_master_remove_domain, hl2]
  have habsent : containsName l2 n = false :=
    removeFirst_not_contains ctx.domain_list n l2 hnd hl2
  rw [CreateEnv.succeeds, Bool.and_eq_true] at hsucc
  obtain ⟨d, hd⟩ := Option.isSome_iff_exists.1 hsucc.1
  refine ⟨by rw [hrem], ⟨{ ctx with domain_list := ⟨n, d⟩ :: l2 }, ?_, ?_⟩⟩
  · rw [hrem, nif_master_create_domain, habsent]
    simp [hd, hsucc.2]
  · have := removeFirst_length ctx.domain_list n l2 hl2
    simp only [List.length_cons]
    exact this

/-- Witness for C8: remove "A" from a two-entry registry, then re-create it;
the registry ends with two entries again. -/
theorem C8_remove_then_create_same_size_witness :
    (nif_master_remove_domain ⟨some 0, [⟨"A", 0⟩, ⟨"B", 1⟩]⟩ (some "A")).1 =
        NifResult.ok ∧
      ∃ ctx2, nif_master_create_domain ⟨some 2, true⟩
          (nif_master_remove_domain ⟨some 0, [⟨"A", 0⟩, ⟨"B", 1⟩]⟩
            (some "A")).2 (some "A") =
          some (NifResult.ok, ctx2) ∧
        ctx2.domain_list.length =
          (⟨some 0, [⟨"A", 0⟩, ⟨"B", 1⟩]⟩ : EthercatContext).domain_list.length :=
  C8_remove_then_create_same_size ⟨some 0, [⟨"A", 0⟩, ⟨"B", 1⟩]⟩ "A"
    ⟨some 2, true⟩ (by decide) (by decide) (by decide)

section NodupPreservation

/-- Any outcome of `nif_master_create_domain` that does not crash keeps the
registry names duplicate-free: the duplicate scan refuses a present name, and
every other non-crashing branch leaves the list unchanged. -/
theorem create_preserves_nodup (env : CreateEnv) (ctx : EthercatContext)
    (arg : Option String) (r : NifResult) (ctx2 : EthercatContext)
    (h : nif_master_create_domain env ctx arg = some (r, ctx2))
    (hnd : (registryNames ctx).Nodup) : (registryNames ctx2).Nodup := by
  cases arg with
  | none =>
    rw [nif_master_create_domain] at h
    obtain ⟨-, rfl⟩ : r = NifResult.badarg ∧ ctx = ctx2 := by
      have := h
      simp at this
      exact ⟨this.1.symm, this.2⟩
    exact hnd
  | some name =>
    rw [nif_master_create_domain] at h
    by_cases hc : containsName ctx.domain_list name
    · rw [if_pos hc] at h
      simp at h
      rw [← h.2]
      exact hnd
    · rw [if_neg hc] at h
      cases hd : env.createdDomain with
      | none =>
        rw [hd] at h
        simp at h
        rw [← h.2]
        exact hnd
      | some d =>
        rw [hd] at h
        by_cases ha : env.allocOk
        · simp only [ha, if_true] at h
          simp at h
          rw [← h.2, registryNames, List.map_cons, List.nodup_cons]
          refine ⟨fun hm => ?_, hnd⟩
          exact absurd ((containsName_eq_mem ctx.domain_list name).2 hm)
            (by simpa using hc)
        · simp [ha] at h

/-- Any outcome of `nif_master_remove_domain` keeps the registry names
duplicate-free: removal only ever drops a node. -/
theorem remove_preserves_nodup (ctx : EthercatContext) (arg : Option String)
    (hnd : (registryNames ctx).Nodup) :
    (registryNames (nif_master_remove_domain ctx arg).2).Nodup := by
  cases arg with
  | none => exact hnd
  | some name =>
    cases hr : removeFirst ctx.domain_list name with
    | none =>
      rw [nif_master_remove_domain, hr]
      exact hnd
    | some l2 =>
      rw [nif_master_remove_domain, hr]
      have hsub := (removeFirst_sublist ctx.domain_list name l2 hr).map
        (fun c => c.name)
      exact hnd.sublist hsub

/-- Duplicate-freeness of registry names is preserved along any non-crashing
run of create and remove calls. -/
theorem runOps_preserves_nodup (ops : List RegistryOp) :
    ∀ (ctx : EthercatContext), (registryNames ctx).Nodup →
      ∀ ctx2, runOps ctx ops = some ctx2 → (registryNames ctx2).Nodup := by
  induction ops with
  | nil =>
    intro ctx h ctx2 hrun
    obtain rfl : ctx = ctx2 := by injection hrun
    exact h
  | cons op rest ih =>
    intro ctx h ctx2 hrun
    cases op with
    | create env n =>
      rw [runOps] at hrun
      cases hc : nif_master_create_domain env ctx (some n) with
      | none => rw [hc] at hrun; cases hrun
      | some p =>
        rw [hc] at hrun
        exact ih p.2 (create_preserves_nodup env ctx (some n) p.1 p.2
          (by rw [hc]) h) ctx2 hrun
    | remove n =>
      rw [runOps] at hrun
      exact ih _ (remove_preserves_nodup ctx (some n) h) ctx2 hrun

end NodupPreservation

/-- Claim C9: starting from the empty registry, after any non-crashing
sequence of `create_domain` and `remove_domain` calls, no two registry
entries share a name. -/
theorem C9_registry_names_unique (m : Option Nat) (ops : List RegistryOp)
    (ctx2 : EthercatContext) (h : runOps ⟨m, []⟩ ops = some ctx2) :
    (registryNames ctx2).Nodup :=
  runOps_preserves_nodup ops ⟨m, []⟩ (by simp [registryNames]) ctx2 h

/-- Witness for C9 on the run create A, create B, remove A, create A. -/
theorem C9_registry_names_unique_witness :
    (registryNames ⟨some 0, [⟨"A", 2⟩, ⟨"B", 1⟩]⟩).Nodup :=
  C9_registry_names_unique (some 0)
    [RegistryOp.create ⟨some 0, true⟩ "A", RegistryOp.create ⟨some 1, true⟩ "B",
      RegistryOp.remove "A", RegistryOp.create ⟨some 2, true⟩ "A"]
    ⟨some 0, [⟨"A", 2⟩, ⟨"B", 1⟩]⟩ (by decide)

section TraceLemmas

/-- The notify targets of a concatenated trace are the concatenated notify
targets. -/
theorem notifyTargets_append (l1 l2 : List Event) :
    notifyTargets (l1 ++ l2) = notifyTargets l1 ++ notifyTargets l2 := by
  induction l1 with
  | nil => rfl
  | cons e rest ih =>
    cases e with
    | notify t d => simp [notifyTargets, ih]
    | receive => simpa [notifyTargets] using ih
    | process d => simpa [notifyTargets] using ih
    | queue d => simpa [notifyTargets] using ih
    | send => simpa [notifyTargets] using ih

/-- Every `enif_send` in the per-domain loop targets the captured caller
pid. -/
theorem notifyTargets_processDomains (wc : DomainHandle → WcState)
    (callerPid : Nat) (l : List DomainNode) :
    ∀ t ∈ notifyTargets (processDomains wc callerPid l), t = callerPid := by
  induction l with
  | nil => intro t ht; cases ht
  | cons c rest ih =>
    intro t ht
    have hred : notifyTargets (processDomains wc callerPid (c :: rest)) =
        notifyTargets ((if check_domain_state wc c.domain then
            [Event.notify callerPid c.domain]
          else []) ++ processDomains wc callerPid rest) := rfl
    rw [hred, notifyTargets_append] at ht
    rcases List.mem_append.1 ht with ht1 | ht2
    · by_cases hchk : check_domain_state wc c.domain
      · rw [if_pos hchk] at ht1
        have hone : notifyTargets [Event.notify callerPid c.domain] =
            [callerPid] := rfl
        rw [hone] at ht1
        simpa using ht1
      · rw [if_neg hchk] at ht1
        cases ht1
    · exact ih t ht2

/-- Notifications for a handle absent from the list never occur in the
per-domain loop. -/
theorem count_notify_processDomains_absent (wc : DomainHandle → WcState)
    (callerPid : Nat) (d : DomainHandle) (l : List DomainNode)
    (h : d ∉ l.map fun c => c.domain) :
    (processDomains wc callerPid l).count (Event.notify callerPid d) = 0 := by
  induction l with
  | nil => rfl
  | cons c rest ih =>
    rw [List.map_cons, List.mem_cons] at h
    push_neg at h
    rw [processDomains, List.count_cons, List.count_append]
    have hne : Event.notify callerPid c.domain ≠ Event.notify callerPid d :=
      fun he => h.1 (by injection he with h1 h2; exact h2.symm)
    by_cases hchk : check_domain_state wc c.domain
    · rw [if_pos hchk]
      simp [List.count_singleton, ih (by simpa using h.2), hne]
    · rw [if_neg hchk]
      simp [ih (by simpa using h.2)]

/-- In the per-domain loop over handle-distinct nodes, the notifications for
a listed node number exactly one when its state is Complete and zero
otherwise. -/
theorem count_notify_processDomains (wc : DomainHandle → WcState)
    (callerPid : Nat) (l : List DomainNode) (node : DomainNode)
    (hnd : (l.map fun c => c.domain).Nodup) (hmem : node ∈ l) :
    (processDomains wc callerPid l).count
        (Event.notify callerPid node.domain) =
      if wc node.domain = WcState.complete then 1 else 0 := by
  induction l with
  | nil => cases hmem
  | cons c rest ih =>
    rw [List.map_cons, List.nodup_cons] at hnd
    rw [processDomains, List.count_cons, List.count_append]
    rcases List.mem_cons.1 hmem with rfl | hmem2
    · have hrest : (processDomains wc callerPid rest).count
          (Event.notify callerPid node.domain) = 0 :=
        count_notify_processDomains_absent wc callerPid node.domain rest hnd.1
      by_cases hchk : check_domain_state wc node.domain
      · rw [if_pos hchk]
        have hwc : wc node.domain = WcState.complete := of_decide_eq_true hchk
        simp [hrest, hwc, List.count_singleton]
      · rw [if_neg hchk]
        have hwc : ¬wc node.domain = WcState.complete :=
          of_decide_eq_false (Bool.of_not_eq_true hchk)
        simp [hrest, hwc]
    · have hne : node.domain ≠ c.domain := by
        intro he
        exact hnd.1 (he ▸ List.mem_map_of_mem (fun c => c.domain) hmem2)
      have hhead : Event.notify callerPid c.domain ≠
          Event.notify callerPid node.domain :=
        fun he => hne (by injection he with h1 h2; exact h2.symm)
      by_cases hchk : check_domain_state wc c.domain
      · rw [if_pos hchk]
        simp [List.count_singleton, hhead, ih hnd.2 hmem2]
      · rw [if_neg hchk]
        simp [ih hnd.2 hmem2]

end TraceLemmas

/-- Claim C1: within one cycle of the embedded traces, `domain_process` never
occurs before `ecrt_master_receive` in the run-loop iteration (run performs
the receive/process portion), and in `queue_all_domains` (the queue/send
portion) `ecrt_master_send` never occurs before every registered domain has
been queued. -/
theorem C1_cycle_ordering (wc : DomainHandle → WcState)
    (ctx : EthercatContext) (callerPid : Nat) :
    (∀ (i : Nat) (d : DomainHandle),
        (cyclicIteration wc ctx callerPid)[i]? = some (Event.process d) →
        ∃ j : Nat, j < i ∧
          (cyclicIteration wc ctx callerPid)[j]? = some Event.receive) ∧
      ∀ i : Nat, (queueAllDomainsTrace ctx)[i]? = some Event.send →
        ∀ node ∈ ctx.domain_list, ∃ j : Nat, j < i ∧
          (queueAllDomainsTrace ctx)[j]? = some (Event.queue node.domain) := by
  constructor
  · intro i d h
    match i with
    | 0 =>
      rw [cyclicIteration, List.getElem?_cons_zero] at h
      cases h
    | Nat.succ k =>
      exact ⟨0, Nat.succ_pos k, by rw [cyclicIteration, List.getElem?_cons_zero]⟩
  · intro i h node hmem
    have hlen : i = ctx.domain_list.length := by
      rcases lt_or_ge i (ctx.domain_list.map fun c =>
          Event.queue c.domain).length with hlt | hge
      · exfalso
        rw [queueAllDomainsTrace, List.getElem?_append_left hlt,
          List.getElem?_map] at h
        rw [List.length_map] at hlt
        rw [List.getElem?_eq_getElem hlt] at h
        simp at h
      · rw [queueAllDomainsTrace, List.getElem?_append_right hge] at h
        rw [List.length_map] at hge h
        rcases hk : i - ctx.domain_list.length with _ | k
        · omega
        · rw [hk, List.getElem?_cons_succ] at h
          cases h
    obtain ⟨k, hk, hnode⟩ := List.mem_iff_getElem.1 hmem
    refine ⟨k, by rw [hlen]; exact hk, ?_⟩
    rw [queueAllDomainsTrace,
      List.getElem?_append_left (by rw [List.length_map]; exact hk),
      List.getElem?_map, List.getElem?_eq_getElem hk, hnode]
    rfl

/-- Witness for C1 at a one-domain registry: the process event at index 1 has
a receive before it, and the send event at index 1 of the queue trace has the
queue of the registered domain before it. -/
theorem C1_cycle_ordering_witness :
    (∃ j, j < 1 ∧
        (cyclicIteration (fun _ => WcState.complete) ⟨some 0, [⟨"A", 0⟩]⟩ 1)[j]? =
          some Event.receive) ∧
      ∃ j, j < 1 ∧
        (queueAllDomainsTrace ⟨some 0, [⟨"A", 0⟩]⟩)[j]? =
          some (Event.queue 0) :=
  ⟨(C1_cycle_ordering (fun _ => WcState.complete) ⟨some 0, [⟨"A", 0⟩]⟩ 1).1
      1 0 (by decide),
    (C1_cycle_ordering (fun _ => WcState.complete) ⟨some 0, [⟨"A", 0⟩]⟩ 1).2
      1 (by decide) ⟨"A", 0⟩ (by decide)⟩

/-- Claim C2: in one iteration of the cyclic loop over handle-distinct
registered domains, each registered domain receives exactly one notification
when its working-counter state is Complete and none otherwise (so zero for
the Zero and Incomplete states). -/
theorem C2_notify_iff_complete (wc : DomainHandle → WcState)
    (ctx : EthercatContext) (callerPid : Nat) (node : DomainNode)
    (hnd : (ctx.domain_list.map fun c => c.domain).Nodup)
    (hmem : node ∈ ctx.domain_list) :
    (cyclicIteration wc ctx callerPid).count
        (Event.notify callerPid node.domain) =
      if wc node.domain = WcState.complete then 1 else 0 := by
  rw [cyclicIteration, List.count_cons]
  simpa using count_notify_processDomains wc callerPid ctx.domain_list node
    hnd hmem

/-- Witness for C2: with "A" Complete and "B" Incomplete, domain "A" gets
exactly one notification this cycle. -/
theorem C2_notify_iff_complete_witness :
    (cyclicIteration
          (fun d => if d = 0 then WcState.complete else WcState.incomplete)
          ⟨some 0, [⟨"A", 0⟩, ⟨"B", 1⟩]⟩ 1).count (Event.notify 1 0) =
      if (fun d => if d = 0 then WcState.complete else WcState.incomplete) 0 =
          WcState.complete then 1 else 0 :=
  C2_notify_iff_complete
    (fun d => if d = 0 then WcState.complete else WcState.incomplete)
    ⟨some 0, [⟨"A", 0⟩, ⟨"B", 1⟩]⟩ 1 ⟨"A", 0⟩ (by decide) (by decide)

/-- Claim C4 — counterexample.  The claim says every notification of the
cyclic loop is delivered to a Subscriber Reference registered via a
configuration call.  With pid 1 calling `run` and pid 2 as the
spec-configured subscriber, one loop iteration over a Complete domain sends
its single notification to pid 1 (the pid `enif_self` captured), so a
notification is delivered to a pid other than the configured subscriber. -/
theorem C4_counterexample_notify_targets_caller :
    (SpecConfiguredSubscriber.mk 2).subscriber ≠ 1 ∧
      notifyTargets (nif_cyclic_task_run (fun _ => WcState.complete)
          ⟨some 0, [⟨"A", 0⟩]⟩ true 1 1).2 = [1] := by
  decide

/-- Amended claim C4: every notification emitted by the cyclic loop is
delivered asynchronously to the pid captured once by `enif_self` before the
loop starts — the process that called `run` — and, when `enif_self`
succeeds, `run` never returns within any number of loop iterations. -/
theorem C4_amended_notify_caller_and_never_returns
    (wc : DomainHandle → WcState) (ctx : EthercatContext)
    (callerPid : Nat) (fuel : Nat) :
    (∀ t ∈ notifyTargets (nif_cyclic_task_run wc ctx true callerPid fuel).2,
        t = callerPid) ∧
      (nif_cyclic_task_run wc ctx true callerPid fuel).1 = none := by
  rw [nif_cyclic_task_run, if_pos rfl]
  induction fuel with
  | zero =>
    refine ⟨fun t ht => ?_, rfl⟩
    cases ht
  | succ k ih =>
    rw [nif_cyclic_task_loop]
    refine ⟨fun t ht => ?_, ih.2⟩
    rw [notifyTargets_append] at ht
    rcases List.mem_append.1 ht with ht1 | ht2
    · have hred : notifyTargets (cyclicIteration wc ctx callerPid) =
          notifyTargets (processDomains wc callerPid ctx.domain_list) := rfl
      rw [hred] at ht1
      exact notifyTargets_processDomains wc callerPid ctx.domain_list t ht1
    · exact ih.1 t ht2

/-- Witness for the amended C4 at two loop iterations over a one-domain
registry with caller pid 1. -/
theorem C4_amended_notify_caller_and_never_returns_witness :
    (1 : Nat) = 1 ∧
      (nif_cyclic_task_run (fun _ => WcState.complete) ⟨some 0, [⟨"A", 0⟩]⟩
          true 1 2).1 = none :=
  ⟨(C4_amended_notify_caller_and_never_returns (fun _ => WcState.complete)
        ⟨some 0, [⟨"A", 0⟩]⟩ 1 2).1 1 (by decide),
    (C4_amended_notify_caller_and_never_returns (fun _ => WcState.complete)
        ⟨some 0, [⟨"A", 0⟩]⟩ 1 2).2⟩

end EthercatEx
